import Mathlib

/-!
Shallow embedding of `src/python/nanobrain/types.py` from the cognanobrain
repository, and proofs about it.

Modelling conventions: Python floats are modelled as exact rationals (`ℚ`)
for the pure arithmetic of `TruthValue.merge` and `prime_encode` (every
decimal float literal of the source is taken at its decimal value), and as
reals (`ℝ`) where the code applies transcendental functions
(`compute_ppm_coherence` uses `math.sin`, `math.sqrt`, `math.pi`).  Python
ints are `ℤ`/`ℕ`.  CPython behaviour of `abs`/`int()` on non-finite floats
is modelled explicitly (`PyFloat`, `prime_encodePy`).
-/

/-- The `TruthValue` dataclass of `types.py`: fields `strength`, `confidence`,
`count`, with dataclass defaults `1.0`, `0.0`, `0.0`.  The dataclass performs
no validation of its fields. -/
structure TruthValue where
  strength : ℚ := 1
  confidence : ℚ := 0
  count : ℚ := 0
  deriving DecidableEq

/-- The default-constructed `TruthValue()`: the dataclass field defaults
`strength = 1.0`, `confidence = 0.0`, `count = 0.0`. -/
def defaultTruthValue : TruthValue := ⟨1, 0, 0⟩

/-- `TruthValue.merge` of `types.py`.  The Python body binds
`count = c1 + c2 - c1 * c2`, sets
`strength = (s1*c1 + s2*c2 - s1*c1*c2*s2) / count` when `count > 0` and
`0.5` otherwise, and returns `TruthValue(strength, count,
self.count + other.count)` — so the local `count` becomes the result's
`confidence` field (second positional argument). -/
def TruthValue.merge (self other : TruthValue) : TruthValue where
  strength :=
    if 0 < self.confidence + other.confidence - self.confidence * other.confidence then
      (self.strength * self.confidence + other.strength * other.confidence -
          self.strength * self.confidence * other.confidence * other.strength) /
        (self.confidence + other.confidence - self.confidence * other.confidence)
    else 0.5
  confidence := self.confidence + other.confidence - self.confidence * other.confidence
  count := self.count + other.count

/-- Construction of the `TruthValue` dataclass with an explicit error channel,
so that the specification's claimed rejection of out-of-range fields can be
stated.  The dataclass has no `__post_init__` and performs no validation, so
construction always succeeds. -/
def TruthValue.construct (strength confidence count : ℚ) : Except String TruthValue :=
  .ok ⟨strength, confidence, count⟩

/-- The constant `FUNDAMENTAL_PRIMES` of `types.py`. -/
def FUNDAMENTAL_PRIMES : List ℕ := [2, 3, 5, 7, 11, 13, 17, 19, 23, 29, 31, 37, 41, 43, 47]

/-- The constant `GOLDEN_RATIO = 1.618033988749895` of `types.py`, at the
exact decimal value of the source literal. -/
def GOLDEN_RATIO : ℚ := 1.618033988749895

/-- `compute_ppm_coherence` of `types.py`: `0.5` for the empty list, `0.5`
when the accumulated `total` is zero, otherwise
`0.5 + 0.5 * sin(sqrt(product) * PI / total)` where `product` and `total`
are the product and sum accumulated over the list (and `PI = math.pi`). -/
noncomputable def compute_ppm_coherence (primes : List ℕ) : ℝ :=
  if primes = [] then 0.5
  else if primes.sum = 0 then 0.5
  else 0.5 + 0.5 * Real.sin (Real.sqrt (primes.prod : ℝ) * Real.pi / (primes.sum : ℝ))

/-- CPython `int()` applied to a finite (rational-modelled) float: truncation
toward zero, i.e. floor for nonnegative arguments and ceiling for negative
ones. -/
def pyInt (q : ℚ) : ℤ := if 0 ≤ q then ⌊q⌋ else ⌈q⌉

/-- CPython `x % 1.0` for a finite float `x`: the fractional part
`x - ⌊x⌋ ∈ [0, 1)` (the result of Python `%` takes the sign of the
divisor, here positive). -/
def pyMod1 (q : ℚ) : ℚ := Int.fract q

/-- The loop of `prime_encode` in `types.py`:
`for i in range(num_primes): if i < len(FUNDAMENTAL_PRIMES): idx =
int(abs_val * len(FUNDAMENTAL_PRIMES)) % len(FUNDAMENTAL_PRIMES);
primes.append(FUNDAMENTAL_PRIMES[idx]); abs_val = (abs_val * GOLDEN_RATIO)
% 1.0`.  Here `i` is the loop counter, the second argument counts the
remaining iterations of `range(num_primes)`, then the current `abs_val`
and the accumulated `primes` list.  Python `%` on ints with positive
modulus agrees with `Int.emod`; the index is always in range, so the
list access is rendered total with `getD`. -/
def primeEncodeGo : ℕ → ℕ → ℚ → List ℕ → List ℕ
  | _, 0, _, primes => primes
  | i, n + 1, absVal, primes =>
    if i < FUNDAMENTAL_PRIMES.length then
      primeEncodeGo (i + 1) n (pyMod1 (absVal * GOLDEN_RATIO))
        (primes ++ [FUNDAMENTAL_PRIMES.getD
          ((pyInt (absVal * (FUNDAMENTAL_PRIMES.length : ℚ)) %
            (FUNDAMENTAL_PRIMES.length : ℤ)).toNat) 0])
    else
      primeEncodeGo (i + 1) n absVal primes

/-- Python `sorted(set(l))`: the strictly ascending enumeration of the
distinct elements of `l`.  Sorting the duplicate-free `l.dedup` computes
exactly this list (the sorted permutation of a list is unique, so the choice
of sorting algorithm is immaterial). -/
def pySortedSet (l : List ℕ) : List ℕ := List.insertionSort (· ≤ ·) l.dedup

/-- `prime_encode` of `types.py` on a finite (rational-modelled) float:
run the loop from `abs_val = |value|` with an empty accumulator, then
return `sorted(set(primes))`. -/
def prime_encode (value : ℚ) (num_primes : ℕ) : List ℕ :=
  pySortedSet (primeEncodeGo 0 num_primes |value| [])

/-- A CPython float argument to `prime_encode`: either a finite value
(modelled exactly as a rational) or one of the non-finite specials. -/
inductive PyFloat where
  | finite (q : ℚ)
  | nan
  | inf
  | ninf
  deriving DecidableEq

/-- Python exceptions reachable from `prime_encode` on non-finite input,
together with the `InvalidSignalError` that the specification names (no
such class occurs anywhere in the repository). -/
inductive PyError where
  | valueError
  | overflowError
  | invalidSignalError
  deriving DecidableEq

/-- `prime_encode` including CPython behaviour on non-finite floats:
`abs(nan) = nan`, `abs(±inf) = inf`, and the loop's first
`int(abs_val * 15)` raises `ValueError` on `nan` and `OverflowError` on
infinity; when `num_primes = 0` the loop body never runs and
`sorted(set([])) = []` is returned. -/
def prime_encodePy (value : PyFloat) (num_primes : ℕ) : Except PyError (List ℕ) :=
  match value with
  | .finite q => .ok (prime_encode q num_primes)
  | .nan => if num_primes = 0 then .ok [] else .error .valueError
  | .inf => if num_primes = 0 then .ok [] else .error .overflowError
  | .ninf => if num_primes = 0 then .ok [] else .error .overflowError

/-- One advance of the `prime_encode` loop state, as the specification
describes it: `v ↦ (v * φ) mod 1`. -/
def nbStep (v : ℚ) : ℚ := pyMod1 (v * GOLDEN_RATIO)

/-- The state of the `prime_encode` loop before iteration `i`, as the
specification describes it: `v₀ = |value|` and `v_{i+1} = (v_i * φ) mod 1`. -/
def encState (value : ℚ) : ℕ → ℚ
  | 0 => |value|
  | i + 1 => nbStep (encState value i)

/-- The prime selected at iteration `i` of the `prime_encode` loop, as the
specification describes it: `table[⌊v_i · 15⌋ mod 15]`. -/
def specSelect (value : ℚ) (i : ℕ) : ℕ :=
  FUNDAMENTAL_PRIMES.getD ((⌊encState value i * 15⌋ % 15).toNat) 0

/-- The list of primes selected by the loop starting from state `v`, for a
given number of selection steps. -/
def selList (v : ℚ) : ℕ → List ℕ
  | 0 => []
  | n + 1 => FUNDAMENTAL_PRIMES.getD ((⌊v * 15⌋ % 15).toNat) 0 :: selList (nbStep v) n

/-- Claim C7 — the merged `confidence` is `c1 + c2 - c1·c2` and the merged
`count` is `a.count + b.count`. -/
theorem C7_merge_confidence_count (a b : TruthValue) :
    (a.merge b).confidence = a.confidence + b.confidence - a.confidence * b.confidence ∧
    (a.merge b).count = a.count + b.count :=
  ⟨rfl, rfl⟩

/-- Claim C7 witness at a concrete pair of truth values. -/
theorem C7_merge_confidence_count_witness :
    (TruthValue.merge ⟨1, 1, 0⟩ ⟨1, 1, 0⟩).confidence = 1 + 1 - 1 * 1 ∧
    (TruthValue.merge ⟨1, 1, 0⟩ ⟨1, 1, 0⟩).count = 0 + 0 :=
  C7_merge_confidence_count ⟨1, 1, 0⟩ ⟨1, 1, 0⟩

/-- Claim C8 — `merge` is commutative in all three fields: numerator,
denominator, branch condition, confidence and count are all symmetric under
swapping the arguments. -/
theorem C8_merge_comm (a b : TruthValue) : a.merge b = b.merge a := by
  obtain ⟨s1, c1, n1⟩ := a
  obtain ⟨s2, c2, n2⟩ := b
  simp only [TruthValue.merge, TruthValue.mk.injEq]
  refine ⟨?_, by ring, by ring⟩
  rw [show c2 + c1 - c2 * c1 = c1 + c2 - c1 * c2 from by ring]
  split_ifs with h
  · ring
  · rfl

/-- Claim C1 counterexample — at `a = b = TruthValue(1, 1, 0)` the combined
confidence is `1 > 0` but the merged strength is `1`, not the plain
confidence-weighted blend `(1·1 + 1·1)/1 = 2`: the implementation subtracts
the cross term `s1·c1·c2·s2` from the numerator. -/
theorem C1_counterexample :
    (0 : ℚ) < 1 + 1 - 1 * 1 ∧
    (TruthValue.merge ⟨1, 1, 0⟩ ⟨1, 1, 0⟩).strength ≠
      ((1 : ℚ) * 1 + 1 * 1) / (1 + 1 - 1 * 1) := by
  constructor
  · norm_num
  · norm_num [TruthValue.merge]

/-- Claim C1 (amended) — when the combined confidence
`c = c1 + c2 - c1·c2` is positive, the merged strength is
`(s1·c1 + s2·c2 - s1·c1·c2·s2) / c` (the blend adjusted by the cross term);
when `c = 0` it is `0.5`. -/
theorem C1_merge_strength (a b : TruthValue) :
    (0 < a.confidence + b.confidence - a.confidence * b.confidence →
      (a.merge b).strength =
        (a.strength * a.confidence + b.strength * b.confidence -
            a.strength * a.confidence * b.confidence * b.strength) /
          (a.confidence + b.confidence - a.confidence * b.confidence)) ∧
    (a.confidence + b.confidence - a.confidence * b.confidence = 0 →
      (a.merge b).strength = 0.5) := by
  constructor
  · intro h
    simp only [TruthValue.merge]
    rw [if_pos h]
  · intro h
    simp only [TruthValue.merge]
    rw [if_neg (by rw [h]; exact lt_irrefl 0)]

/-- Claim C1 witness — both branches at concrete truth values. -/
theorem C1_merge_strength_witness :
    (TruthValue.merge ⟨1/2, 1/2, 0⟩ ⟨1/4, 1/2, 0⟩).strength =
      ((1/2 : ℚ) * (1/2) + (1/4) * (1/2) - (1/2) * (1/2) * (1/2) * (1/4)) /
        ((1/2 : ℚ) + 1/2 - (1/2) * (1/2)) ∧
    (TruthValue.merge ⟨1, 0, 0⟩ ⟨1, 0, 0⟩).strength = 0.5 :=
  ⟨(C1_merge_strength ⟨1/2, 1/2, 0⟩ ⟨1/4, 1/2, 0⟩).1 (by norm_num),
   (C1_merge_strength ⟨1, 0, 0⟩ ⟨1, 0, 0⟩).2 (by norm_num)⟩

/-- Claim C5 counterexample — constructing a `TruthValue` with strength `2`
and confidence `3`, both outside `[0, 1]`, succeeds and is not rejected with
any error: the dataclass performs no validation. -/
theorem C5_counterexample :
    TruthValue.construct 2 3 0 = Except.ok ⟨2, 3, 0⟩ ∧
    (1 : ℚ) < 2 ∧ (1 : ℚ) < 3 ∧
    ¬ ∃ e, TruthValue.construct 2 3 0 = Except.error e := by
  refine ⟨rfl, by norm_num, by norm_num, ?_⟩
  rintro ⟨e, he⟩
  exact Except.noConfusion he

/-- Claim C5 (amended) — `TruthValue` construction performs no validation and
never raises: it succeeds for every choice of field values, including
strength or confidence outside `[0, 1]`. -/
theorem C5_construct_total (s c n : ℚ) :
    TruthValue.construct s c n = Except.ok ⟨s, c, n⟩ := rfl

/-- Claim C10 — the default `TruthValue()` (strength `1`, confidence `0`,
count `0`) is a two-sided identity for `merge` on every truth value with
positive confidence. -/
theorem C10_default_identity (t : TruthValue) (h : 0 < t.confidence) :
    t.merge defaultTruthValue = t ∧ defaultTruthValue.merge t = t := by
  obtain ⟨s1, c1, n1⟩ := t
  simp only [TruthValue.confidence] at h
  constructor
  · simp only [TruthValue.merge, defaultTruthValue, TruthValue.mk.injEq,
      mul_zero, add_zero, sub_zero, mul_one, one_mul, zero_mul, zero_add]
    refine ⟨?_, trivial, trivial⟩
    rw [if_pos h, mul_div_assoc, div_self (ne_of_gt h), mul_one]
  · simp only [TruthValue.merge, defaultTruthValue, TruthValue.mk.injEq,
      mul_zero, add_zero, sub_zero, mul_one, one_mul, zero_mul, zero_add]
    refine ⟨?_, trivial, trivial⟩
    rw [if_pos h, mul_div_assoc, div_self (ne_of_gt h), mul_one]

/-- Claim C10 witness at the truth value `(3/10, 1/2, 2)`. -/
theorem C10_default_identity_witness :
    TruthValue.merge ⟨3/10, 1/2, 2⟩ defaultTruthValue = ⟨3/10, 1/2, 2⟩ ∧
    defaultTruthValue.merge ⟨3/10, 1/2, 2⟩ = ⟨3/10, 1/2, 2⟩ :=
  C10_default_identity ⟨3/10, 1/2, 2⟩ (by norm_num)

/-- Claim C9 — `merge` preserves the truth-value domain: strengths and
confidences in `[0, 1]` and nonnegative counts are mapped to a result with
strength in `[0, 1]`, confidence in `[0, 1]` and nonnegative count. -/
theorem C9_merge_preserves_domain (a b : TruthValue)
    (has0 : 0 ≤ a.strength) (has1 : a.strength ≤ 1)
    (hac0 : 0 ≤ a.confidence) (hac1 : a.confidence ≤ 1)
    (hbs0 : 0 ≤ b.strength) (hbs1 : b.strength ≤ 1)
    (hbc0 : 0 ≤ b.confidence) (hbc1 : b.confidence ≤ 1)
    (han : 0 ≤ a.count) (hbn : 0 ≤ b.count) :
    (0 ≤ (a.merge b).strength ∧ (a.merge b).strength ≤ 1) ∧
    (0 ≤ (a.merge b).confidence ∧ (a.merge b).confidence ≤ 1) ∧
    0 ≤ (a.merge b).count := by
  obtain ⟨s1, c1, n1⟩ := a
  obtain ⟨s2, c2, n2⟩ := b
  simp only [TruthValue.strength, TruthValue.confidence, TruthValue.count] at *
  simp only [TruthValue.merge]
  refine ⟨?_, ⟨?_, ?_⟩, by linarith⟩
  · split_ifs with h
    · have hnum0 : 0 ≤ s1 * c1 + s2 * c2 - s1 * c1 * c2 * s2 := by
        nlinarith [mul_nonneg (mul_nonneg has0 hac0)
            (sub_nonneg.mpr (mul_le_one₀ hbc1 hbs0 hbs1)),
          mul_nonneg hbs0 hbc0]
      have hA : 0 ≤ c1 * (1 - s1) * (1 - c2) :=
        mul_nonneg (mul_nonneg hac0 (by linarith)) (by linarith)
      have hB : 0 ≤ c2 * (1 - s2) * (1 - s1 * c1) :=
        mul_nonneg (mul_nonneg hbc0 (by linarith))
          (sub_nonneg.mpr (mul_le_one₀ has1 hac0 hac1))
      have hle : s1 * c1 + s2 * c2 - s1 * c1 * c2 * s2 ≤ c1 + c2 - c1 * c2 := by
        nlinarith [hA, hB]
      exact ⟨div_nonneg hnum0 h.le, (div_le_one h).mpr hle⟩
    · norm_num
  · nlinarith [mul_nonneg hac0 (sub_nonneg.mpr hbc1)]
  · nlinarith [mul_nonneg (sub_nonneg.mpr hac1) (sub_nonneg.mpr hbc1)]

/-- Claim C9 witness at a concrete pair of in-domain truth values. -/
theorem C9_merge_preserves_domain_witness :
    (0 ≤ (TruthValue.merge ⟨1/2, 1/2, 1⟩ ⟨1/4, 3/4, 2⟩).strength ∧
      (TruthValue.merge ⟨1/2, 1/2, 1⟩ ⟨1/4, 3/4, 2⟩).strength ≤ 1) ∧
    (0 ≤ (TruthValue.merge ⟨1/2, 1/2, 1⟩ ⟨1/4, 3/4, 2⟩).confidence ∧
      (TruthValue.merge ⟨1/2, 1/2, 1⟩ ⟨1/4, 3/4, 2⟩).confidence ≤ 1) ∧
    0 ≤ (TruthValue.merge ⟨1/2, 1/2, 1⟩ ⟨1/4, 3/4, 2⟩).count :=
  C9_merge_preserves_domain ⟨1/2, 1/2, 1⟩ ⟨1/4, 3/4, 2⟩ (by norm_num) (by norm_num)
    (by norm_num) (by norm_num) (by norm_num) (by norm_num) (by norm_num) (by norm_num)
    (by norm_num) (by norm_num)

/-- Claim C6 counterexample — `prime_encode` on `NaN` raises `ValueError`
(from the `int()` conversion inside the loop), not the specification's
`InvalidSignalError`, which does not occur in the code. -/
theorem C6_counterexample :
    prime_encodePy PyFloat.nan 5 = Except.error PyError.valueError ∧
    PyError.valueError ≠ PyError.invalidSignalError :=
  ⟨rfl, by decide⟩

/-- Claim C6 (amended) — `prime_encode` raises no error on any finite input;
on non-finite input with at least one loop iteration it raises `ValueError`
for `NaN` and `OverflowError` for `±∞` (there is no `InvalidSignalError`
anywhere in the code). -/
theorem C6_prime_encode_errors (q : ℚ) (k : ℕ) (hk : 0 < k) :
    prime_encodePy (PyFloat.finite q) k = Except.ok (prime_encode q k) ∧
    prime_encodePy PyFloat.nan k = Except.error PyError.valueError ∧
    prime_encodePy PyFloat.inf k = Except.error PyError.overflowError ∧
    prime_encodePy PyFloat.ninf k = Except.error PyError.overflowError := by
  have hk0 : k ≠ 0 := Nat.pos_iff_ne_zero.mp hk
  exact ⟨rfl, by simp [prime_encodePy, hk0], by simp [prime_encodePy, hk0],
    by simp [prime_encodePy, hk0]⟩

/-- Claim C6 witness at input `0` (finite) and `num_primes = 5`. -/
theorem C6_prime_encode_errors_witness :
    prime_encodePy (PyFloat.finite 0) 5 = Except.ok (prime_encode 0 5) ∧
    prime_encodePy PyFloat.nan 5 = Except.error PyError.valueError ∧
    prime_encodePy PyFloat.inf 5 = Except.error PyError.overflowError ∧
    prime_encodePy PyFloat.ninf 5 = Except.error PyError.overflowError :=
  C6_prime_encode_errors 0 5 (by norm_num)

/-- Claim C2 — on a non-empty list of positive integers,
`compute_ppm_coherence` returns `0.5 + 0.5·sin(√(∏P)·π/ΣP)`, which lies in
`[0, 1]`; on the empty list it returns exactly `0.5`. -/
theorem C2_ppm_coherence (P : List ℕ) (hne : P ≠ []) (hpos : ∀ p ∈ P, 0 < p) :
    compute_ppm_coherence P =
      0.5 + 0.5 * Real.sin (Real.sqrt (P.prod : ℝ) * Real.pi / (P.sum : ℝ)) ∧
    compute_ppm_coherence P ∈ Set.Icc (0 : ℝ) 1 ∧
    compute_ppm_coherence [] = 0.5 := by
  have hsum : P.sum ≠ 0 := by
    cases P with
    | nil => exact absurd rfl hne
    | cons q t =>
      have hq : 0 < q := hpos q (List.mem_cons_self q t)
      simp only [List.sum_cons]
      omega
  have heq : compute_ppm_coherence P =
      0.5 + 0.5 * Real.sin (Real.sqrt (P.prod : ℝ) * Real.pi / (P.sum : ℝ)) := by
    rw [compute_ppm_coherence, if_neg hne, if_neg hsum]
  refine ⟨heq, ?_, by rw [compute_ppm_coherence]; norm_num⟩
  rw [heq]
  have h1 := Real.neg_one_le_sin (Real.sqrt (P.prod : ℝ) * Real.pi / (P.sum : ℝ))
  have h2 := Real.sin_le_one (Real.sqrt (P.prod : ℝ) * Real.pi / (P.sum : ℝ))
  constructor <;> [nlinarith; nlinarith]

/-- Claim C2 witness at the list `[2, 3, 5, 7]`. -/
theorem C2_ppm_coherence_witness :
    compute_ppm_coherence [2, 3, 5, 7] ∈ Set.Icc (0 : ℝ) 1 :=
  (C2_ppm_coherence [2, 3, 5, 7] (by decide) (by decide)).2.1

/-- The fixed prime table has 15 entries. -/
theorem FUNDAMENTAL_PRIMES_length : FUNDAMENTAL_PRIMES.length = 15 := rfl

/-- `(v * φ) mod 1` is nonnegative. -/
theorem pyMod1_nonneg (q : ℚ) : 0 ≤ pyMod1 q := Int.fract_nonneg q

/-- On nonnegative loop states, the source's index computation
`int(abs_val * len(table)) % len(table)` is `⌊v · 15⌋ mod 15`. -/
theorem pyInt_idx_eq {v : ℚ} (hv : 0 ≤ v) :
    (pyInt (v * (FUNDAMENTAL_PRIMES.length : ℚ)) %
      (FUNDAMENTAL_PRIMES.length : ℤ)).toNat = (⌊v * 15⌋ % 15).toNat := by
  have h15 : (FUNDAMENTAL_PRIMES.length : ℚ) = 15 := by
    rw [FUNDAMENTAL_PRIMES_length]; norm_num
  have h15i : (FUNDAMENTAL_PRIMES.length : ℤ) = 15 := by
    rw [FUNDAMENTAL_PRIMES_length]; norm_num
  rw [h15, h15i, pyInt, if_pos (mul_nonneg hv (by norm_num))]

/-- The result of `pySortedSet` is strictly ascending (hence duplicate-free). -/
theorem pySortedSet_sorted (l : List ℕ) : (pySortedSet l).Sorted (· < ·) := by
  have hs : (pySortedSet l).Sorted (· ≤ ·) := List.sorted_insertionSort _ _
  have hn : (pySortedSet l).Nodup :=
    ((List.perm_insertionSort _ _).nodup_iff).mpr (List.nodup_dedup l)
  exact hs.lt_of_le hn

/-- `pySortedSet` never lengthens a list. -/
theorem pySortedSet_length_le (l : List ℕ) : (pySortedSet l).length ≤ l.length := by
  have h1 : (pySortedSet l).length = l.dedup.length :=
    (List.perm_insertionSort _ _).length_eq
  have h2 : l.dedup.length ≤ l.length := (List.dedup_sublist l).length_le
  omega

/-- `pySortedSet` has the same members as its input. -/
theorem mem_pySortedSet {x : ℕ} {l : List ℕ} : x ∈ pySortedSet l ↔ x ∈ l := by
  rw [pySortedSet, (List.perm_insertionSort _ _).mem_iff, List.mem_dedup]

/-- The loop appends at most one prime per remaining iteration. -/
theorem primeEncodeGo_length (n : ℕ) : ∀ (i : ℕ) (v : ℚ) (acc : List ℕ),
    (primeEncodeGo i n v acc).length ≤ acc.length + n := by
  induction n with
  | zero => intro i v acc; rw [primeEncodeGo]; omega
  | succ n ih =>
    intro i v acc
    rw [primeEncodeGo]
    split_ifs with hi
    · refine le_trans (ih _ _ _) ?_
      simp only [List.length_append, List.length_singleton]
      omega
    · exact le_trans (ih _ _ _) (by omega)

/-- Every element the loop produces is in the accumulator or in the table. -/
theorem primeEncodeGo_mem (n : ℕ) : ∀ (i : ℕ) (v : ℚ) (acc : List ℕ) (x : ℕ),
    x ∈ primeEncodeGo i n v acc → x ∈ acc ∨ x ∈ FUNDAMENTAL_PRIMES := by
  induction n with
  | zero => intro i v acc x hx; rw [primeEncodeGo] at hx; exact Or.inl hx
  | succ n ih =>
    intro i v acc x hx
    rw [primeEncodeGo] at hx
    split_ifs at hx with hi
    · rcases ih _ _ _ _ hx with h | h
      · rw [List.mem_append] at h
        rcases h with h | h
        · exact Or.inl h
        · right
          rw [List.mem_singleton] at h
          subst h
          have hidx : (pyInt (v * (FUNDAMENTAL_PRIMES.length : ℚ)) %
              (FUNDAMENTAL_PRIMES.length : ℤ)).toNat < FUNDAMENTAL_PRIMES.length := by
            have h15 : (0 : ℤ) < (FUNDAMENTAL_PRIMES.length : ℤ) := by
              rw [FUNDAMENTAL_PRIMES_length]; norm_num
            have h1 := Int.emod_nonneg (pyInt (v * (FUNDAMENTAL_PRIMES.length : ℚ)))
              (ne_of_gt h15)
            have h2 := Int.emod_lt_of_pos (pyInt (v * (FUNDAMENTAL_PRIMES.length : ℚ))) h15
            omega
          rw [List.getD_eq_getElem _ _ hidx]
          exact List.getElem_mem _
      · exact Or.inr h
    · exact ih _ _ _ _ hx

/-- On a nonnegative starting state, the loop appends exactly the selection
list for `min n (15 - i)` steps. -/
theorem primeEncodeGo_eq_selList (n : ℕ) : ∀ (i : ℕ) (v : ℚ) (acc : List ℕ), 0 ≤ v →
    primeEncodeGo i n v acc = acc ++ selList v (min n (FUNDAMENTAL_PRIMES.length - i)) := by
  induction n with
  | zero =>
    intro i v acc _
    rw [primeEncodeGo]
    simp [selList]
  | succ n ih =>
    intro i v acc hv
    rw [primeEncodeGo]
    split_ifs with hi
    · rw [ih (i + 1) _ _ (pyMod1_nonneg _), pyInt_idx_eq hv]
      have h1 : FUNDAMENTAL_PRIMES.length - i = (FUNDAMENTAL_PRIMES.length - (i + 1)) + 1 := by
        omega
      rw [h1, Nat.succ_min_succ, selList]
      simp [nbStep, List.append_assoc]
    · have h0 : FUNDAMENTAL_PRIMES.length - i = 0 := by omega
      have h0' : FUNDAMENTAL_PRIMES.length - (i + 1) = 0 := by omega
      rw [ih (i + 1) v acc hv, h0, h0']
      simp

/-- The selection list starting from the state before iteration `i` is the
per-iteration selection over a range. -/
theorem selList_encState (n : ℕ) : ∀ (value : ℚ) (i : ℕ),
    selList (encState value i) n = (List.range n).map (fun j => specSelect value (i + j)) := by
  induction n with
  | zero => intro value i; rw [selList]; simp
  | succ n ih =>
    intro value i
    rw [selList, List.range_succ_eq_map, List.map_cons, List.map_map]
    congr 1
    rw [show nbStep (encState value i) = encState value (i + 1) from rfl, ih value (i + 1)]
    refine congrArg (fun g => List.map g (List.range n)) ?_
    funext j
    show specSelect value (i + 1 + j) = specSelect value (i + (j + 1))
    congr 1
    omega

/-- Claim C3 — for every finite value and every `num_primes ≥ 0`,
`prime_encode` returns a strictly ascending (hence duplicate-free) list of
length at most `num_primes`, all of whose elements belong to the fixed
15-element prime table. -/
theorem C3_prime_encode_shape (value : ℚ) (num_primes : ℕ) :
    (prime_encode value num_primes).Sorted (· < ·) ∧
    (prime_encode value num_primes).length ≤ num_primes ∧
    ∀ x ∈ prime_encode value num_primes, x ∈ FUNDAMENTAL_PRIMES := by
  refine ⟨pySortedSet_sorted _, ?_, ?_⟩
  · calc (prime_encode value num_primes).length
        ≤ (primeEncodeGo 0 num_primes |value| []).length := pySortedSet_length_le _
      _ ≤ [].length + num_primes := primeEncodeGo_length num_primes 0 |value| []
      _ = num_primes := by simp
  · intro x hx
    have hmem : x ∈ primeEncodeGo 0 num_primes |value| [] := mem_pySortedSet.mp hx
    rcases primeEncodeGo_mem num_primes 0 |value| [] x hmem with h | h
    · exact absurd h (List.not_mem_nil x)
    · exact h

/-- Claim C4 — `prime_encode` performs exactly `min(num_primes, 15)`
selection steps; at step `i` it selects `table[⌊v_i · 15⌋ mod 15]` where
the states satisfy `v_0 = |value|`, `v_{i+1} = (v_i · φ) mod 1` and every
`v_i` is nonnegative; the result is the deduplicated ascending sort of the
selected primes. -/
theorem C4_prime_encode_refines (value : ℚ) (num_primes : ℕ) :
    prime_encode value num_primes =
      pySortedSet ((List.range (min num_primes 15)).map (specSelect value)) ∧
    ∀ i, 0 ≤ encState value i := by
  constructor
  · rw [prime_encode,
      primeEncodeGo_eq_selList num_primes 0 |value| [] (abs_nonneg value),
      show FUNDAMENTAL_PRIMES.length - 0 = 15 from rfl, List.nil_append,
      show |value| = encState value 0 from rfl, selList_encState]
    simp
  · intro i
    induction i with
    | zero => exact abs_nonneg value
    | succ i _ => exact pyMod1_nonneg _
